import Mathlib

/-!
Shallow embedding of the circuit-editor mutation engine and gesture state
machine of `circuit_vis/src/events.ts` (class `CircuitEvents`), together with
proofs about the embedded definitions.

Modelling conventions:
* A JavaScript `Operation` object is the inductive `Operation`; optional
  fields (`controls`, `children`, `dataAttributes`) are `Option`s, so that the
  JS distinction between an absent field and an empty array is preserved
  (an empty array is truthy in JS, `undefined` is falsy).
* JS numbers appearing as wire ids are `Int` (they are integers in the
  source); array indices parsed from location strings are `Option Nat`,
  `none` standing for `NaN` (`parseInt` of a non-numeric segment).
* A computation that can raise a JS `TypeError` (property access on
  `undefined`) returns `JsOut α`; `JsOut.thrown` marks the exception.
* In-place object mutation is modelled by explicit positional updates on the
  operation tree: an array of the tree is addressed by the list of child
  descents (`List Nat`) taken from the root, an element by such a path plus
  its index.  When a splice moves objects around, the positional address of a
  previously captured object reference is recomputed (`insAdj`, `eraseAdj`),
  mirroring the fact that JS object references are stable while indices move.
-/

namespace CircuitVis

/-- A `Register` from `register.ts` as used by `events.ts`: a quantum wire id
`qId` and an optional classical wire id `cId`. -/
structure Register where
  qId : Int
  cId : Option Int
deriving DecidableEq, Repr

/-- An `Operation` from `circuit.ts` as used by `events.ts`: gate tag,
targets, optional controls, optional children, optional data attributes. -/
inductive Operation where
  | mk (gate : String) (targets : List Register) (controls : Option (List Register))
       (children : Option (List Operation)) (dataAttributes : Option (List (String × String)))

def Operation.gate : Operation → String
  | .mk g _ _ _ _ => g

def Operation.targets : Operation → List Register
  | .mk _ t _ _ _ => t

def Operation.controls : Operation → Option (List Register)
  | .mk _ _ c _ _ => c

def Operation.children : Operation → Option (List Operation)
  | .mk _ _ _ ch _ => ch

def Operation.dataAttributes : Operation → Option (List (String × String))
  | .mk _ _ _ _ da => da

/-- Outcome of a JS computation: a normal value, or an escaped `TypeError`. -/
inductive JsOut (α : Type) where
  | thrown : JsOut α
  | val : α → JsOut α

/-- Total node count of a subtree (the operation itself plus all
descendants). -/
def countOp : Operation → Nat
  | .mk _ _ _ ch _ => 1 + countChild ch
where
  countChild : Option (List Operation) → Nat
    | none => 0
    | some l => countList l
  countList : List Operation → Nat
    | [] => 0
    | o :: os => countOp o + countList os

/-- Total node count of an operation array. -/
def countList (l : List Operation) : Nat := countOp.countList l

/-- Structural deep equality, the embedding of lodash `isEqual` on operation
values. -/
def opBEq : Operation → Operation → Bool
  | .mk g1 t1 c1 ch1 d1, .mk g2 t2 c2 ch2 d2 =>
    g1 == g2 && t1 == t2 && c1 == c2 && d1 == d2 &&
    (match ch1, ch2 with
     | none, none => true
     | some l1, some l2 => opsBEq l1 l2
     | _, _ => false)
where
  opsBEq : List Operation → List Operation → Bool
    | [], [] => true
    | a :: as_, b :: bs => opBEq a b && opsBEq as_ bs
    | _, _ => false

/-- lodash `isEqual` on two operation arrays (structural deep equality). -/
def isEqual (a b : List Operation) : Bool := opBEq.opsBEq a b

def opBEqRefl : ∀ (a : Operation), opBEq a a = true
  | .mk g t c ch d => by
    cases ch with
    | none => simp [opBEq]
    | some l => simp [opBEq, opsBEqRefl l]
where
  opsBEqRefl : ∀ (l : List Operation), opBEq.opsBEq l l = true
    | [] => by simp [opBEq.opsBEq]
    | a :: as_ => by simp [opBEq.opsBEq, opBEqRefl a, opsBEqRefl as_]

theorem isEqual_refl (a : List Operation) : isEqual a a = true :=
  opBEqRefl.opsBEqRefl a

/-! ### List helpers mirroring JS array primitives -/

/-- Replace the element at index `i` by `f` of it (no-op when out of
bounds), mirroring an in-place field update of `array[i]`. -/
def modifyIdx : List α → Nat → (α → α) → List α
  | [], _, _ => []
  | x :: xs, 0, f => f x :: xs
  | x :: xs, n + 1, f => x :: modifyIdx xs n f

/-- `array.splice(i, 0, x)`: insert `x` at index `i` (JS clamps the start
index to the array length, which `take`/`drop` already do). -/
def spliceIns (l : List α) (i : Nat) (x : α) : List α :=
  l.take i ++ x :: l.drop i

/-- `array.splice(i, 1)`: delete the element at index `i`. -/
def eraseAt (l : List α) (i : Nat) : List α :=
  l.take i ++ l.drop (i + 1)

/-! ### Location parsing (`_indexes`, `_lastIndex`) -/

/-- JS `String.prototype.split('-')` over the character list: every `'-'`
starts a new segment (consecutive separators produce empty segments). -/
def splitDash : List Char → List Char → List (List Char)
  | [], acc => [acc.reverse]
  | c :: cs, acc =>
    if c = '-' then acc.reverse :: splitDash cs [] else splitDash cs (c :: acc)

/-- JS `parseInt` restricted to the segments produced by splitting on `"-"`:
leading whitespace and an optional `+` sign are skipped, then the longest
digit run is read; no digits means `NaN` (`none`). -/
def parseIntJS (cs0 : List Char) : Option Nat :=
  let cs := cs0.dropWhile (fun c => c = ' ' || c = '\t' || c = '\n' || c = '\r')
  let cs := match cs with
    | '+' :: rest => rest
    | other => other
  match cs.takeWhile Char.isDigit with
  | [] => none
  | ds => some (ds.foldl (fun acc c => acc * 10 + (c.toNat - 48)) 0)

/-- `_indexes`: split a location string on `"-"` and `parseInt` each
segment; the empty string yields the empty sequence. -/
def indexes (location : String) : List (Option Nat) :=
  if location ≠ "" then (splitDash location.data []).map parseIntJS else []

/-- `_lastIndex`: `indexes.pop()` — `none` when the sequence is empty,
`some none` when the last segment parsed to `NaN`. -/
def lastIndex (location : String) : Option (Option Nat) :=
  (indexes location).getLast?

/-! ### The accessor walk

`parentArray = parentArray[index].children || parentArray` per index:
an out-of-bounds or `NaN` index makes `parentArray[index]` `undefined` and
the `.children` access throw; a node without `children` falls back to the
current array.  `walk` also records the list of child descents actually
taken, which is the positional address of the resulting array. -/

def walk : List Operation → List (Option Nat) → Option (List Nat × List Operation)
  | arr, [] => some ([], arr)
  | _, none :: _ => none
  | arr, some i :: rest =>
    match arr[i]? with
    | none => none
    | some op =>
      match op.children with
      | some c =>
        match walk c rest with
        | none => none
        | some (d, a) => some (i :: d, a)
      | none => walk arr rest

/-- The array reached from the root by a list of child descents. -/
def arrAt : List Operation → List Nat → Option (List Operation)
  | arr, [] => some arr
  | arr, i :: d =>
    match arr[i]? with
    | none => none
    | some op =>
      match op.children with
      | none => none
      | some c => arrAt c d

/-- Rebuild the tree with `f` applied to the array at the given descent
path (the functional rendering of mutating that array in place). -/
def updAt : List Operation → List Nat → (List Operation → List Operation) → List Operation
  | arr, [], f => f arr
  | arr, i :: d, f =>
    modifyIdx arr i (fun op =>
      match op with
      | .mk g t c none da => .mk g t c none da
      | .mk g t c (some ch) da => .mk g t c (some (updAt ch d f)) da)

/-- Positional address of an element: a descent path and an index. -/
structure Addr where
  d : List Nat
  i : Nat
deriving DecidableEq, Repr

/-- The element at an address. -/
def getAt (ops : List Operation) (a : Addr) : Option Operation :=
  match arrAt ops a.d with
  | none => none
  | some arr => arr[a.i]?

/-- Apply `f` to the element at an address (in-place object mutation). -/
def applyAtAddr (ops : List Operation) (a : Addr) (f : Operation → Operation) : List Operation :=
  updAt ops a.d (fun arr => modifyIdx arr a.i f)

/-! ### The three finders (`_findParentArray`, `_findOperation`,
`_findParentOperation`) -/

/-- `_findParentArray`: `null` for a falsy location, otherwise the walk over
all indexes but the last; the walk throws on an out-of-bounds or `NaN`
intermediate index. -/
def findParentArray (ops : List Operation) (location : String) : JsOut (Option (List Operation)) :=
  if location = "" then .val none
  else
    match walk ops (indexes location).dropLast with
    | none => .thrown
    | some (_, arr) => .val (some arr)

/-- `_findOperation`: the parent array indexed by the last index;
out-of-bounds or `NaN` last index yields `undefined` (`none`). -/
def findOperation (ops : List Operation) (location : String) : JsOut (Option Operation) :=
  if location = "" then .val none
  else
    match walk ops (indexes location).dropLast with
    | none => .thrown
    | some (_, arr) =>
      match (indexes location).getLast? with
      | none => .val none
      | some none => .val none
      | some (some i) => .val arr[i]?

/-- `_findParentOperation`: pops two trailing indexes; `null` when fewer
than two remain (checked before the walk, so a short location never
throws); a `NaN` second-to-last index passes the `== null` check and then
indexes the walked array as `undefined`. -/
def findParentOperation (ops : List Operation) (location : String) : JsOut (Option Operation) :=
  if location = "" then .val none
  else
    let l := (indexes location).dropLast
    match l.getLast? with
    | none => .val none
    | some idxOpt =>
      match walk ops l.dropLast with
      | none => .thrown
      | some (_, arr) =>
        match idxOpt with
        | none => .val none
        | some i => .val arr[i]?

/-- `_findOperation` together with the positional address of the returned
object (used by the mutators, which capture the object reference). -/
def resolveOp (ops : List Operation) (location : String) : JsOut (Option (Addr × Operation)) :=
  if location = "" then .val none
  else
    match walk ops (indexes location).dropLast with
    | none => .thrown
    | some (d, arr) =>
      match (indexes location).getLast? with
      | none => .val none
      | some none => .val none
      | some (some i) =>
        match arr[i]? with
        | none => .val none
        | some op => .val (some (⟨d, i⟩, op))

/-- `_findParentOperation` together with the positional address of the
returned object. -/
def resolveParentOp (ops : List Operation) (location : String) : JsOut (Option (Addr × Operation)) :=
  if location = "" then .val none
  else
    let l := (indexes location).dropLast
    match l.getLast? with
    | none => .val none
    | some idxOpt =>
      match walk ops l.dropLast with
      | none => .thrown
      | some (d, arr) =>
        match idxOpt with
        | none => .val none
        | some i =>
          match arr[i]? with
          | none => .val none
          | some op => .val (some (⟨d, i⟩, op))

/-! ### Wire remapping (`_circularMod`, `_offsetRecursively`, `_moveY`,
`_addY`) -/

/-- `_circularMod`: `(((value + offset) % total) + total) % total` with the
JS `%` (truncating remainder, `Int.tmod`).  For `total = 0` JS yields `NaN`;
that degenerate case (an empty wire table) is outside this model. -/
def circularMod (value offset total : Int) : Int :=
  (((value + offset).tmod total) + total).tmod total

/-- The update applied to a register of `operation.targets`:
`target.qId = circularMod(...)`, and `if (target.cId) target.cId =
circularMod(target.cId, ...)` — the truthiness test skips an absent `cId`
and also a `cId` equal to `0`. -/
def shiftTarget (wireOffset total : Int) (r : Register) : Register :=
  { qId := circularMod r.qId wireOffset total,
    cId := match r.cId with
           | none => none
           | some c => if c ≠ 0 then some (circularMod c wireOffset total) else some c }

/-- The update applied to a register of `operation.controls`: the source
reads `control.cId = this._circularMod(control.qId, ...)` — the new `cId`
is computed from the already-updated `qId`, not from `cId`. -/
def shiftControl (wireOffset total : Int) (r : Register) : Register :=
  let q := circularMod r.qId wireOffset total
  { qId := q,
    cId := match r.cId with
           | none => none
           | some c => if c ≠ 0 then some (circularMod q wireOffset total) else some c }

/-- `_offsetRecursively`: shift all targets and controls of the operation
and, recursively, of every child. -/
def offsetRecursively : Operation → Int → Int → Operation
  | .mk g t c ch da, wireOffset, total =>
    .mk g (t.map (shiftTarget wireOffset total))
      (match c with
       | none => none
       | some cs => some (cs.map (shiftControl wireOffset total)))
      (match ch with
       | none => none
       | some l => some (offsetList l wireOffset total))
      da
where
  offsetList : List Operation → Int → Int → List Operation
    | [], _, _ => []
    | o :: os, wireOffset, total =>
      offsetRecursively o wireOffset total :: offsetList os wireOffset total

/-- `_moveY`: remap unless the operation's own gate is `"measure"`; the
offset is `targetWire - sourceWire`. -/
def moveY (sourceWire targetWire : Int) (operation : Operation) (totalWires : Int) : Operation :=
  if operation.gate ≠ "measure" then offsetRecursively operation (targetWire - sourceWire) totalWires
  else operation

/-- `_addY`: remap unless the operation's own gate is `"measure"`; the
offset is the absolute target wire. -/
def addY (targetWire : Int) (operation : Operation) (totalWires : Int) : Operation :=
  if operation.gate ≠ "measure" then offsetRecursively operation targetWire totalWires
  else operation

/-- All quantum wire ids (`qId`) referenced by an operation: its targets,
its controls, and recursively those of its children, in that order. -/
def qIdsOp : Operation → List Int
  | .mk _ t c ch _ =>
    t.map Register.qId ++
      (match c with
       | none => []
       | some cs => cs.map Register.qId) ++
      (match ch with
       | none => []
       | some l => qIdsList l)
where
  qIdsList : List Operation → List Int
    | [] => []
    | o :: os => qIdsOp o ++ qIdsList os

/-! ### Target aggregation (`_targets`) -/

/-- JS `Array.from(new Set(l))`: deduplicate keeping the first occurrence
of each value, preserving order. -/
def dedupFS (l : List Int) : List Int :=
  l.foldl (fun acc q => if acc.contains q then acc else acc ++ [q]) []

/-- The contribution one child pushes onto the shared register accumulator
in `_targets`' `_recurse`: its `targets`; then, only if it has a `controls`
field, its `controls` and — only inside that branch — the contributions of
its own children. -/
def collectRegs : Operation → List Register
  | .mk _ t c ch _ =>
    t ++
      (match c with
       | none => []
       | some cs =>
         cs ++
           (match ch with
            | none => []
            | some l => collectList l))
where
  collectList : List Operation → List Register
    | [] => []
    | o :: os => collectRegs o ++ collectList os

/-- `_targets`: empty for an operation without `children`; otherwise the
deduplicated `qId`s of the collected registers, each returned as a register
with no `cId`. -/
def targetsFn (operation : Operation) : List Register :=
  match operation.children with
  | none => []
  | some ch =>
    let registers := collectRegs.collectList ch
    (dedupFS (registers.map Register.qId)).map (fun q => { qId := q, cId := none })

/-! ### The deletion marker -/

/-- First value bound to a key in a JS object rendered as an association
list. -/
def attrLookup : List (String × String) → String → Option String
  | [], _ => none
  | (k, v) :: rest, key => if k = key then some v else attrLookup rest key

/-- `obj[key] = value`: overwrite an existing binding in place, else append. -/
def attrSet : List (String × String) → String → String → List (String × String)
  | [], key, value => [(key, value)]
  | (k, w) :: rest, key, value =>
    if k = key then (k, value) :: rest else (k, w) :: attrSet rest key value

/-- Truthiness of `operation.dataAttributes && operation.dataAttributes['removed']`:
the attributes object exists and binds `"removed"` to a non-empty string. -/
def isRemoved (op : Operation) : Bool :=
  match op.dataAttributes with
  | none => false
  | some attrs =>
    match attrLookup attrs "removed" with
    | none => false
    | some v => v != ""

/-- Set the transient deletion marker: create the attributes object if
absent, then bind `"removed"` to `"true"`. -/
def markRemoved : Operation → Operation
  | .mk g t c ch da =>
    match da with
    | none => .mk g t c ch (some [("removed", "true")])
    | some attrs => .mk g t c ch (some (attrSet attrs "removed" "true"))

/-- `findIndex(removed)` followed by `splice(index, 1)`: erase the first
marked element; when none is found `findIndex` yields `-1` and
`splice(-1, 1)` deletes the last element (nothing on an empty array). -/
def spliceRemoveMarked (l : List Operation) : List Operation :=
  match l.findIdx? isRemoved with
  | some i => eraseAt l i
  | none => l.dropLast

/-! ### Address adjustment

JS object references are stable under splices; positional addresses are
not.  After `arrayAt(dt).splice(p, 0, x)` the address of the element that
was at `(ds, i)` moves exactly when the splice happened in the same array
at or before `i`, or in a proper ancestor array at or before the descent
taken there.  After `arrayAt(de).splice(r, 1)` an element moves down
likewise, and is detached from the tree when the erased element was itself
or one of its ancestors. -/

/-- `descends p q`: the descent path `p` is an initial segment of `q`. -/
def descends : List Nat → List Nat → Bool
  | [], _ => true
  | _, [] => false
  | a :: p, b :: q => a == b && descends p q

/-- Proper initial segment. -/
def properUnder (p q : List Nat) : Bool :=
  descends p q && decide (p.length < q.length)

/-- Increment the entry of a descent path at position `n`. -/
def bumpAt (d : List Nat) (n : Nat) : List Nat :=
  modifyIdx d n (· + 1)

/-- Decrement the entry of a descent path at position `n`. -/
def dropBumpAt (d : List Nat) (n : Nat) : List Nat :=
  modifyIdx d n (· - 1)

/-- New address of the element formerly at `(ds, i)` after inserting at
position `p` of the array at `dt`. -/
def insAdj (ds : List Nat) (i : Nat) (dt : List Nat) (p : Nat) : List Nat × Nat :=
  if ds = dt then (ds, if p ≤ i then i + 1 else i)
  else if properUnder dt ds then
    let k := (ds.drop dt.length).headD 0
    if p ≤ k then (bumpAt ds dt.length, i) else (ds, i)
  else (ds, i)

/-- New address of the element at `(dc, pc)` after erasing index `r` of the
array at `de`; `none` when the element was erased or sat inside the erased
subtree. -/
def eraseAdj (dc : List Nat) (pc : Nat) (de : List Nat) (r : Nat) : Option (List Nat × Nat) :=
  if de = dc then
    if r < pc then some (dc, pc - 1)
    else if r = pc then none
    else some (dc, pc)
  else if properUnder de dc then
    let k := (dc.drop de.length).headD 0
    if r < k then some (dropBumpAt dc de.length, pc)
    else if r = k then none
    else some (dc, pc)
  else some (dc, pc)

/-! ### The mutators (`_removeOperation`, `_moveX`, `_copyX`,
`_addOperation`)

Each returns the whole post-mutation tree (the functional rendering of the
in-place splices) plus, for the inserting mutators, the inserted clone and
its address. -/

/-- `_removeOperation`: resolve the operation and its parent array, mark
the operation, erase the first marked element of the parent array.  A
failed resolution leaves the tree unchanged; a malformed location with an
out-of-bounds intermediate index throws. -/
def removeOperation (ops : List Operation) (sourceLocation : String) : JsOut (List Operation) :=
  match resolveOp ops sourceLocation with
  | .thrown => .thrown
  | .val none => .val ops
  | .val (some (a, _)) =>
    .val (updAt ops a.d (fun arr => spliceRemoveMarked (modifyIdx arr a.i markRemoved)))

/-- The clone returned by an inserting mutator: its current positional
address (`none` once it is detached from the tree) and its value as
returned (the value before any later in-place wire shift). -/
structure MovedInfo where
  addr : Option Addr
  op : Operation

/-- The target-side resolution shared by `_moveX`, `_copyX` and
`_addOperation`: `_findParentArray(targetLocation)` with its address. -/
def resolveTargetParent (ops : List Operation) (targetLocation : String) :
    JsOut (Option (List Nat × List Operation)) :=
  if targetLocation = "" then .val none
  else
    match walk ops (indexes targetLocation).dropLast with
    | none => .thrown
    | some (d, arr) => .val (some (d, arr))

/-- `_moveX`: equal locations are a no-op returning the source operation
itself; otherwise clone the source, splice the clone in at the target
index, mark the original, and erase the first marked element from the
source parent array.  A `NaN` target last index passes the `== null` check
and `splice` coerces it to `0`. -/
def moveX (ops : List Operation) (sourceLocation targetLocation : String) :
    JsOut (List Operation × Option MovedInfo) :=
  match resolveOp ops sourceLocation with
  | .thrown => .thrown
  | .val srcRes =>
    if sourceLocation = targetLocation then
      .val (ops, srcRes.map (fun ao => ⟨some ao.1, ao.2⟩))
    else
      match resolveTargetParent ops targetLocation with
      | .thrown => .thrown
      | .val tgtParent =>
        match tgtParent, (indexes targetLocation).getLast?, srcRes with
        | some (dt, arrT), some tl, some (sa, srcOp) =>
          let pc := min (tl.getD 0) arrT.length
          let ops1 := updAt ops dt (fun arr => spliceIns arr pc srcOp)
          let a1 := insAdj sa.d sa.i dt pc
          let ops2 := updAt ops1 a1.1 (fun arr => modifyIdx arr a1.2 markRemoved)
          let arrS := (arrAt ops2 a1.1).getD []
          match arrS.findIdx? isRemoved with
          | some r =>
            .val (updAt ops2 a1.1 (fun arr => eraseAt arr r),
              some ⟨(eraseAdj dt pc a1.1 r).map (fun di => ⟨di.1, di.2⟩), srcOp⟩)
          | none =>
            if arrS.isEmpty then .val (ops2, some ⟨some ⟨dt, pc⟩, srcOp⟩)
            else
              .val (updAt ops2 a1.1 (fun arr => arr.dropLast),
                some ⟨(eraseAdj dt pc a1.1 (arrS.length - 1)).map (fun di => ⟨di.1, di.2⟩),
                  srcOp⟩)
        | _, _, _ => .val (ops, none)

/-- `_copyX`: clone the source and splice the clone in at the target index;
the source is untouched.  No equal-location check is made. -/
def copyX (ops : List Operation) (sourceLocation targetLocation : String) :
    JsOut (List Operation × Option MovedInfo) :=
  match resolveOp ops sourceLocation with
  | .thrown => .thrown
  | .val srcRes =>
    match resolveTargetParent ops targetLocation with
    | .thrown => .thrown
    | .val tgtParent =>
      match tgtParent, (indexes targetLocation).getLast?, srcRes with
      | some (dt, arrT), some tl, some (_, srcOp) =>
        let pc := min (tl.getD 0) arrT.length
        .val (updAt ops dt (fun arr => spliceIns arr pc srcOp), some ⟨some ⟨dt, pc⟩, srcOp⟩)
      | _, _, _ => .val (ops, none)

/-- `_addOperation`: splice a clone of the given (toolbox) operation in at
the target index. -/
def addOperation (ops : List Operation) (sourceOperation : Operation) (targetLocation : String) :
    JsOut (List Operation × Option MovedInfo) :=
  match resolveTargetParent ops targetLocation with
  | .thrown => .thrown
  | .val tgtParent =>
    match tgtParent, (indexes targetLocation).getLast? with
    | some (dt, arrT), some tl =>
      let pc := min (tl.getD 0) arrT.length
      .val (updAt ops dt (fun arr => spliceIns arr pc sourceOperation),
        some ⟨some ⟨dt, pc⟩, sourceOperation⟩)
    | _, _ => .val (ops, none)

/-! ### The gesture state machine

`CircuitEvents`' mutable fields plus the operations tree; `wireCount` is
`this.wireData.length`.  Wire attribute strings are modelled as already
parsed integers.  Each handler returns the post-gesture state and whether
`renderFn` was invoked (each handler invokes it at most once per event);
`JsOut.thrown` marks a handler aborted by an escaped `TypeError`. -/

structure CircuitState where
  operations : List Operation
  selectedOperation : Option Operation
  selectedLocation : Option String
  selectedWire : Option Int
  wireCount : Nat

/-- The data carried by a `mouseup` on a dropzone element:
`data-dropzone-location`, `data-dropzone-wire`, and the Ctrl modifier. -/
structure DropEvent where
  targetLoc : Option String
  targetWire : Option Int
  ctrlKey : Bool

/-- Replace an operation's `targets` field. -/
def setTargets : Operation → List Register → Operation
  | .mk g _ c ch da, t => .mk g t c ch da

/-- The dropzone `mouseup` handler.  First branch: add a new operation from
the toolbox (no armed location, an armed operation, and a target); it
clears only `selectedOperation`.  Early return when any of target
location/wire, armed operation/location/wire is missing (nothing cleared,
no redraw).  Otherwise copy (Ctrl held) or move, shift the returned clone's
wires in place, recompute the targets of the source location's parent
operation resolved against the post-mutation tree, clear
`selectedLocation` and `selectedOperation`, and redraw exactly when the
tree is no longer structurally equal to the pre-gesture snapshot. -/
def dropzoneMouseup (s : CircuitState) (ev : DropEvent) : JsOut (CircuitState × Bool) :=
  let orig := s.operations
  match s.selectedLocation, s.selectedOperation, ev.targetLoc, ev.targetWire with
  | none, some selOp, some tLoc, some tWire =>
    match addOperation s.operations selOp tLoc with
    | .thrown => .thrown
    | .val (ops1, newOp) =>
      let ops2 :=
        match newOp with
        | some info =>
          match info.addr with
          | some a => applyAtAddr ops1 a (fun op => addY tWire op (s.wireCount : Int))
          | none => ops1
        | none => ops1
      .val ({ s with operations := ops2, selectedOperation := none }, !(isEqual orig ops2))
  | selLoc?, selOp?, tLoc?, tWire? =>
    match tLoc?, tWire?, selOp?, selLoc?, s.selectedWire with
    | some tLoc, some tWire, some _, some selLoc, some selWire =>
      match (if ev.ctrlKey then copyX s.operations selLoc tLoc else moveX s.operations selLoc tLoc) with
      | .thrown => .thrown
      | .val (ops1, newRes) =>
        match newRes with
        | some info =>
          let ops2 :=
            match info.addr with
            | some a => applyAtAddr ops1 a (fun op => moveY selWire tWire op (s.wireCount : Int))
            | none => ops1
          match resolveParentOp ops2 selLoc with
          | .thrown => .thrown
          | .val parentRes =>
            let ops3 :=
              match parentRes with
              | some (pa, _) => applyAtAddr ops2 pa (fun op => setTargets op (targetsFn op))
              | none => ops2
            let s2 := { s with operations := ops3 }
            let s3 := { s2 with selectedLocation := none, selectedOperation := none }
            .val (s3, !(isEqual orig ops3))
        | none =>
          let s2 := { s with operations := ops1 }
          let s3 := { s2 with selectedLocation := none, selectedOperation := none }
          .val (s3, !(isEqual orig ops1))
    | _, _, _, _, _ => .val (s, false)

/-- The document `keydown` handler for the Delete key (no Ctrl): when a
location is armed, run `_removeOperation` on it and then invoke `renderFn`
unconditionally — even when the removal was a no-op; when no location is
armed, do nothing.  No selection field is cleared. -/
def deleteKeydown (s : CircuitState) : JsOut (CircuitState × Bool) :=
  match s.selectedLocation with
  | some loc =>
    match removeOperation s.operations loc with
    | .thrown => .thrown
    | .val ops2 => .val ({ s with operations := ops2 }, true)
  | none => .val (s, false)

/-! ### Basic lemmas about the list primitives -/

theorem modifyIdx_length (l : List α) (i : Nat) (f : α → α) :
    (modifyIdx l i f).length = l.length := by
  induction l generalizing i with
  | nil => rfl
  | cons x xs ih =>
    cases i with
    | zero => simp [modifyIdx]
    | succ n => simp [modifyIdx, ih]

theorem getElem?_modifyIdx_self (l : List α) (i : Nat) (f : α → α) :
    (modifyIdx l i f)[i]? = (l[i]?).map f := by
  induction l generalizing i with
  | nil => rfl
  | cons x xs ih =>
    cases i with
    | zero => simp [modifyIdx]
    | succ n => simpa [modifyIdx] using ih n

theorem getElem?_modifyIdx_ne (l : List α) (i j : Nat) (f : α → α) (h : i ≠ j) :
    (modifyIdx l i f)[j]? = l[j]? := by
  induction l generalizing i j with
  | nil => rfl
  | cons x xs ih =>
    cases i with
    | zero =>
      cases j with
      | zero => exact absurd rfl h
      | succ m => simp [modifyIdx]
    | succ n =>
      cases j with
      | zero => simp [modifyIdx]
      | succ m => simpa [modifyIdx] using ih n m (by omega)

theorem spliceIns_zero (l : List α) (x : α) : spliceIns l 0 x = x :: l := by
  simp [spliceIns]

theorem spliceIns_cons (a : α) (l : List α) (p : Nat) (x : α) :
    spliceIns (a :: l) (p + 1) x = a :: spliceIns l p x := by
  simp [spliceIns]

theorem spliceIns_length (l : List α) (p : Nat) (x : α) :
    (spliceIns l p x).length = l.length + 1 := by
  simp [spliceIns]
  omega

theorem getElem?_spliceIns_lt (l : List α) (p j : Nat) (x : α) (hj : j < p)
    (hp : p ≤ l.length) : (spliceIns l p x)[j]? = l[j]? := by
  induction l generalizing p j with
  | nil => simp at hp; omega
  | cons a l ih =>
    cases p with
    | zero => omega
    | succ n =>
      rw [spliceIns_cons]
      cases j with
      | zero => simp
      | succ m => simpa using ih n m (by omega) (by simpa using hp)

theorem getElem?_spliceIns_ge (l : List α) (p j : Nat) (x : α) (hj : p ≤ j) :
    (spliceIns l p x)[j + 1]? = l[j]? := by
  induction l generalizing p j with
  | nil =>
    cases p with
    | zero => simp [spliceIns_zero]
    | succ n => simp [spliceIns]
  | cons a l ih =>
    cases p with
    | zero => simp [spliceIns_zero]
    | succ n =>
      rw [spliceIns_cons]
      cases j with
      | zero => omega
      | succ m => simpa using ih n m (by omega)

theorem getElem?_spliceIns_self (l : List α) (p : Nat) (x : α) (hp : p ≤ l.length) :
    (spliceIns l p x)[p]? = some x := by
  induction l generalizing p with
  | nil =>
    cases p with
    | zero => simp [spliceIns_zero]
    | succ n => simp at hp
  | cons a l ih =>
    cases p with
    | zero => simp [spliceIns_zero]
    | succ n =>
      rw [spliceIns_cons]
      simpa using ih n (by simpa using hp)

theorem eraseAt_nil (i : Nat) : eraseAt ([] : List α) i = [] := by
  simp [eraseAt]

theorem eraseAt_zero (a : α) (l : List α) : eraseAt (a :: l) 0 = l := by
  simp [eraseAt]

theorem eraseAt_cons (a : α) (l : List α) (i : Nat) :
    eraseAt (a :: l) (i + 1) = a :: eraseAt l i := by
  simp [eraseAt]

theorem getElem?_eraseAt_lt (l : List α) (i j : Nat) (hj : j < i) :
    (eraseAt l i)[j]? = l[j]? := by
  induction l generalizing i j with
  | nil => simp [eraseAt_nil]
  | cons a l ih =>
    cases i with
    | zero => omega
    | succ n =>
      rw [eraseAt_cons]
      cases j with
      | zero => simp
      | succ m => simpa using ih n m (by omega)

theorem getElem?_eraseAt_ge (l : List α) (i j : Nat) (hj : i ≤ j) :
    (eraseAt l i)[j]? = l[j + 1]? := by
  induction l generalizing i j with
  | nil => simp [eraseAt_nil]
  | cons a l ih =>
    cases i with
    | zero => simp [eraseAt_zero]
    | succ n =>
      rw [eraseAt_cons]
      cases j with
      | zero => omega
      | succ m => simpa using ih n m (by omega)

/-! ### Count lemmas -/

theorem countList_nil : countList [] = 0 := rfl

theorem countList_cons (o : Operation) (os : List Operation) :
    countList (o :: os) = countOp o + countList os := rfl

theorem countList_append (a b : List Operation) :
    countList (a ++ b) = countList a + countList b := by
  induction a with
  | nil => simp [countList_nil]
  | cons x xs ih => simp [countList_cons, ih]; omega

theorem countList_spliceIns (l : List Operation) (p : Nat) (x : Operation) :
    countList (spliceIns l p x) = countOp x + countList l := by
  have h := countList_append (l.take p) (l.drop p)
  rw [List.take_append_drop] at h
  simp [spliceIns, countList_append, countList_cons]
  omega

theorem countList_eraseAt (l : List Operation) (i : Nat) (e : Operation)
    (h : l[i]? = some e) : countList (eraseAt l i) + countOp e = countList l := by
  induction l generalizing i with
  | nil => simp at h
  | cons a l ih =>
    cases i with
    | zero =>
      simp at h
      subst h
      simp [eraseAt_zero, countList_cons]
      omega
    | succ n =>
      simp at h
      rw [eraseAt_cons]
      have := ih n h
      simp [countList_cons]
      omega

theorem countList_modifyIdx (l : List Operation) (i : Nat) (f : Operation → Operation)
    (e : Operation) (h : l[i]? = some e) :
    countList (modifyIdx l i f) + countOp e = countList l + countOp (f e) := by
  induction l generalizing i with
  | nil => simp at h
  | cons a l ih =>
    cases i with
    | zero =>
      simp at h
      subst h
      simp [modifyIdx, countList_cons]
      omega
    | succ n =>
      simp at h
      have := ih n h
      simp [modifyIdx, countList_cons]
      omega

/-! ### Marker lemmas -/

theorem attrLookup_attrSet (l : List (String × String)) (k v : String) :
    attrLookup (attrSet l k v) k = some v := by
  induction l with
  | nil => simp [attrSet, attrLookup]
  | cons p rest ih =>
    by_cases h : p.1 = k
    · simp [attrSet, attrLookup, h]
    · simp [attrSet, attrLookup, h, ih]

theorem isRemoved_markRemoved (op : Operation) : isRemoved (markRemoved op) = true := by
  cases op with
  | mk g t c ch da =>
    cases da with
    | none => rfl
    | some attrs => simp [markRemoved, isRemoved, Operation.dataAttributes, attrLookup_attrSet]

theorem countOp_markRemoved (op : Operation) : countOp (markRemoved op) = countOp op := by
  cases op with
  | mk g t c ch da => cases da <;> rfl

theorem children_markRemoved (op : Operation) : (markRemoved op).children = op.children := by
  cases op with
  | mk g t c ch da => cases da <;> rfl

/-! ### findIdx? lemmas -/

theorem findIdx?_modifyIdx_of_lt (l : List Operation) (p : Operation → Bool) (i j : Nat)
    (f : Operation → Operation) (hfound : l.findIdx? p = some j) (hlt : j < i) :
    (modifyIdx l i f).findIdx? p = some j := by
  induction l generalizing i j with
  | nil => simp at hfound
  | cons x xs ih =>
    cases i with
    | zero => omega
    | succ n =>
      rw [show modifyIdx (x :: xs) (n + 1) f = x :: modifyIdx xs n f from rfl]
      rw [List.findIdx?_cons] at hfound ⊢
      by_cases hx : p x
      · simp [hx] at hfound ⊢
        omega
      · simp [hx] at hfound ⊢
        obtain ⟨j', hj', rfl⟩ := hfound
        exact ⟨j', ih n j' hj' (by omega), rfl⟩

theorem findIdx?_modifyIdx_self_of_clean (l : List Operation) (i : Nat)
    (hclean : ∀ x ∈ l, isRemoved x = false) (hi : i < l.length) :
    (modifyIdx l i markRemoved).findIdx? isRemoved = some i := by
  induction l generalizing i with
  | nil => simp at hi
  | cons x xs ih =>
    cases i with
    | zero =>
      rw [show modifyIdx (x :: xs) 0 markRemoved = markRemoved x :: xs from rfl]
      rw [List.findIdx?_cons]
      simp [isRemoved_markRemoved]
    | succ n =>
      rw [show modifyIdx (x :: xs) (n + 1) markRemoved = x :: modifyIdx xs n markRemoved from rfl]
      rw [List.findIdx?_cons]
      have hx := hclean x (by simp)
      have hih := ih n (fun y hy => hclean y (by simp [hy])) (by simpa using hi)
      simp [hx, hih]

/-! ### Walk and update lemmas -/

theorem walk_arrAt : ∀ (idxs : List (Option Nat)) (arr : List Operation)
    (d : List Nat) (a : List Operation), walk arr idxs = some (d, a) → arrAt arr d = some a := by
  intro idxs
  induction idxs with
  | nil =>
    intro arr d a h
    rw [walk] at h
    cases h
    rfl
  | cons hd rest ih =>
    intro arr d a h
    cases hd with
    | none => rw [walk] at h; cases h
    | some i =>
      rw [walk] at h
      cases harr : arr[i]? with
      | none => rw [harr] at h; cases h
      | some op =>
        rw [harr] at h
        cases op with
        | mk g t c ch da =>
          cases ch with
          | none =>
            simp only [Operation.children] at h
            exact ih arr d a h
          | some cl =>
            simp only [Operation.children] at h
            cases hw : walk cl rest with
            | none => rw [hw] at h; cases h
            | some pr =>
              obtain ⟨d2, a2⟩ := pr
              rw [hw] at h
              cases h
              rw [arrAt, harr]
              simp only [Operation.children]
              exact ih cl _ _ hw

theorem arrAt_updAt_self : ∀ (d : List Nat) (ops a : List Operation)
    (f : List Operation → List Operation), arrAt ops d = some a →
    arrAt (updAt ops d f) d = some (f a) := by
  intro d
  induction d with
  | nil =>
    intro ops a f h
    simp [arrAt] at h
    subst h
    rfl
  | cons i d' ih =>
    intro ops a f h
    rw [arrAt] at h
    cases harr : ops[i]? with
    | none => rw [harr] at h; simp at h
    | some op =>
      rw [harr] at h
      cases op with
      | mk g t c ch da =>
        cases ch with
        | none => simp [Operation.children] at h
        | some cl =>
          simp [Operation.children] at h
          rw [updAt, arrAt, getElem?_modifyIdx_self, harr]
          simp [Operation.children]
          exact ih cl a f h

theorem countList_updAt : ∀ (d : List Nat) (ops a : List Operation)
    (f : List Operation → List Operation), arrAt ops d = some a →
    countList (updAt ops d f) + countList a = countList ops + countList (f a) := by
  intro d
  induction d with
  | nil =>
    intro ops a f h
    simp [arrAt] at h
    subst h
    simp [updAt]
    omega
  | cons i d' ih =>
    intro ops a f h
    rw [arrAt] at h
    cases harr : ops[i]? with
    | none => rw [harr] at h; simp at h
    | some op =>
      rw [harr] at h
      cases op with
      | mk g t c ch da =>
        cases ch with
        | none => simp [Operation.children] at h
        | some cl =>
          simp [Operation.children] at h
          rw [updAt]
          have hmod := countList_modifyIdx ops i
            (fun op => match op with
              | .mk g t c none da => .mk g t c none da
              | .mk g t c (some ch) da => .mk g t c (some (updAt ch d' f)) da)
            (.mk g t c (some cl) da) harr
          have hcount : countOp (Operation.mk g t c (some cl) da) = 1 + countList cl := rfl
          have hcount2 : countOp (Operation.mk g t c (some (updAt cl d' f)) da)
              = 1 + countList (updAt cl d' f) := rfl
          have hih := ih cl a f h
          rw [hcount, hcount2] at hmod
          omega

/-! ### Trees without pre-existing deletion markers -/

/-- No node of the subtree carries a truthy `removed` data attribute. -/
def cleanOp : Operation → Bool
  | .mk g t c ch da =>
    !(isRemoved (.mk g t c ch da)) &&
      (match ch with
       | none => true
       | some l => cleanList l)
where
  cleanList : List Operation → Bool
    | [] => true
    | o :: os => cleanOp o && cleanList os

/-- No node of the whole tree carries a truthy `removed` data attribute. -/
def cleanList (l : List Operation) : Bool := cleanOp.cleanList l

theorem cleanList_mem : ∀ (l : List Operation) (op : Operation),
    cleanList l = true → op ∈ l → cleanOp op = true := by
  intro l
  induction l with
  | nil => intro op h hm; simp at hm
  | cons x xs ih =>
    intro op h hm
    have h2 : (cleanOp x && cleanList xs) = true := h
    simp at h2
    rcases List.mem_cons.mp hm with hm2 | hm2
    · subst hm2; exact h2.1
    · exact ih op h2.2 hm2

theorem cleanOp_unmarked {op : Operation} (h : cleanOp op = true) : isRemoved op = false := by
  cases op with
  | mk g t c ch da =>
    cases ch with
    | none =>
      have h2 : (!(isRemoved (Operation.mk g t c none da)) && true) = true := h
      simpa using h2
    | some l =>
      have h2 : (!(isRemoved (Operation.mk g t c (some l) da)) &&
        cleanOp.cleanList l) = true := h
      simp at h2
      simpa using h2.1

theorem cleanOp_children {op : Operation} {c : List Operation}
    (h : cleanOp op = true) (hc : op.children = some c) : cleanList c = true := by
  cases op with
  | mk g t cc ch da =>
    simp [Operation.children] at hc
    subst hc
    have h2 : (!(isRemoved (Operation.mk g t cc (some c) da)) &&
      cleanOp.cleanList c) = true := h
    simp at h2
    exact h2.2

theorem mem_of_getElemEq : ∀ (l : List α) (i : Nat) (x : α), l[i]? = some x → x ∈ l := by
  intro l
  induction l with
  | nil => intro i x h; simp at h
  | cons y ys ih =>
    intro i x h
    cases i with
    | zero => simp at h; simp [h]
    | succ n => simp at h; simp [ih n x h]

theorem cleanList_arrAt : ∀ (d : List Nat) (ops a : List Operation),
    cleanList ops = true → arrAt ops d = some a → cleanList a = true := by
  intro d
  induction d with
  | nil =>
    intro ops a h ha
    rw [arrAt] at ha
    cases ha
    exact h
  | cons i d2 ih =>
    intro ops a h ha
    rw [arrAt] at ha
    cases harr : ops[i]? with
    | none => rw [harr] at ha; cases ha
    | some op =>
      rw [harr] at ha
      have hop : cleanOp op = true :=
        cleanList_mem ops op h (mem_of_getElemEq ops i op harr)
      cases op with
      | mk g t c ch da =>
        cases ch with
        | none => simp only [Operation.children] at ha; cases ha
        | some cl =>
          simp only [Operation.children] at ha
          exact ih cl a (cleanOp_children hop rfl) ha

/-! ### Definitions taken from the spec's words (for refinement claims) -/

/-- Modelled from the spec: the remapping the spec prescribes for one
register — `wireId` becomes `(wireId + offset) mod wireCount` normalized to
`[0, wireCount)`, "and likewise for `auxWireId` when present". -/
def specShiftReg (wireOffset total : Int) (r : Register) : Register :=
  { qId := circularMod r.qId wireOffset total,
    cId := r.cId.map (fun c => circularMod c wireOffset total) }

/-- Modelled from the spec (claim C6's words): the deduplicated union of
all wire ids referenced as target or control by the node's descendants. -/
def specDescWires (op : Operation) : List Int :=
  match op.children with
  | none => []
  | some l => dedupFS (qIdsOp.qIdsList l)

/-! ### Concrete fixtures -/

def hOp : Operation := .mk "H" [⟨0, none⟩] none none none
def xOp : Operation := .mk "X" [⟨1, none⟩] none none none
def hOp1 : Operation := .mk "H" [⟨1, none⟩] none none none

/-! ## Claim C1 -/

/-- C1 claims the accessors `_findParentArray`, `_findOperation` and
`_findParentOperation` return a not-found sentinel and never throw, for
every tree and every location string.  The code violates this: an
out-of-bounds (or non-numeric) intermediate index makes
`parentArray[index]` `undefined`, and the subsequent `.children` access
throws a `TypeError`.  Against the one-element tree `[H]`, location
`"5-0"` makes `_findParentArray` and `_findOperation` throw, and
`"5-0-0"` makes `_findParentOperation` throw; the same functions do return
the sentinel for the empty location and for an out-of-bounds final
index. -/
theorem c1_accessors_throw :
    findParentArray [hOp] "5-0" = .thrown ∧
    findOperation [hOp] "5-0" = .thrown ∧
    findParentOperation [hOp] "5-0-0" = .thrown ∧
    findParentArray [hOp] "" = .val none ∧
    findOperation [hOp] "3" = .val none ∧
    findParentOperation [hOp] "0" = .val none :=
  ⟨rfl, rfl, rfl, rfl, rfl, rfl⟩

/-! ## Claim C2 -/

/-- `moveX("0","1")` on `[H, X]` followed by shifting the returned clone's
wires by `targetWire(1) - sourceWire(0) = 1` modulo `wireCount 3`, exactly
as the claim's scenario prescribes. -/
def c2Tree : List Operation :=
  match moveX [hOp, xOp] "0" "1" with
  | .val (ops1, some info) =>
    match info.addr with
    | some a => applyAtAddr ops1 a (fun op => offsetRecursively op 1 3)
    | none => ops1
  | _ => []

/-- C2 claims the scenario yields `[ X(wireId 1), H(wireId 1) ]`.  It does
not: the code inserts the clone at target index 1 first and only then
splices out the original at index 0, so moving one slot to the right
leaves the order unchanged and the result is `[ H(wireId 1), X(wireId 1)
]`. -/
theorem c2_scenario_order_counterexample :
    List.map Operation.gate c2Tree = ["H", "X"] ∧
    c2Tree ≠ [Operation.mk "X" [⟨1, none⟩] none none none,
              Operation.mk "H" [⟨1, none⟩] none none none] := by
  refine ⟨rfl, fun h => ?_⟩
  have h2 : (["H", "X"] : List String) = ["X", "H"] := congrArg (List.map Operation.gate) h
  exact absurd h2 (by decide)

/-- C2 amended: the scenario yields `[ H(wireId 1), X(wireId 1) ]` — the
moved clone of H sits at index 0 with its wire shifted 0 → 1, X is
unchanged at index 1 — and the node count is unchanged at 2. -/
theorem c2_scenario_amended :
    c2Tree = [hOp1, xOp] ∧ countList c2Tree = 2 ∧ countList [hOp, xOp] = 2 :=
  ⟨rfl, rfl, rfl⟩

/-! ## Claim C3 -/

/-- C3 claims `shiftWires` replaces each register's `wireId` by the true
modulo `(wireId + d) mod w` — which the code does, e.g. offset −1 on 0 with
w = 4 gives 3 and offset +5 on 1 gives 2 — and "does likewise to the
Register's auxWireId (cId) whenever it is present — for targets and
controls alike".  The code does not: for a control register it computes the
new `cId` from the already-shifted `qId` (`control.cId =
circularMod(control.qId, ...)`), and for both targets and controls a
present `cId` equal to `0` is skipped by the truthiness test.  At the
control register `{qId: 0, cId: 3}` with offset 1, w = 4, the code yields
`{qId: 1, cId: 2}` whereas the claim demands `cId = (3 + 1) mod 4 = 0`;
at the target register `{qId: 1, cId: 0}` the code leaves `cId = 0`
whereas the claim demands `cId = 1`. -/
theorem c3_aux_wire_divergence :
    circularMod 0 (-1) 4 = 3 ∧
    circularMod 1 5 4 = 2 ∧
    offsetRecursively (.mk "G" [⟨1, some 0⟩] (some [⟨0, some 3⟩]) none none) 1 4
      = .mk "G" [⟨2, some 0⟩] (some [⟨1, some 2⟩]) none none ∧
    decide (shiftControl 1 4 ⟨0, some 3⟩ = specShiftReg 1 4 ⟨0, some 3⟩) = false ∧
    decide (shiftTarget 1 4 ⟨1, some 0⟩ = specShiftReg 1 4 ⟨1, some 0⟩) = false :=
  ⟨by decide, by decide, rfl, by decide, by decide⟩

/-! ## Claim C9 -/

def c9Composite : Operation :=
  .mk "Foo" [] none
    (some [.mk "A" [⟨1, none⟩] none none none,
           .mk "B" [⟨1, none⟩] (some [⟨2, none⟩]) none none]) none

def c9NoControlsChild : Operation :=
  .mk "Foo" [] none
    (some [.mk "A" [⟨1, none⟩] none
      (some [.mk "K" [⟨5, none⟩] none none none]) none]) none

theorem dedupFS_go_nodup : ∀ (l acc : List Int), acc.Nodup →
    (l.foldl (fun acc q => if acc.contains q then acc else acc ++ [q]) acc).Nodup := by
  intro l
  induction l with
  | nil => intro acc h; exact h
  | cons x xs ih =>
    intro acc h
    simp only [List.foldl_cons]
    by_cases hc : acc.contains x
    · rw [if_pos hc]
      exact ih acc h
    · rw [if_neg hc]
      refine ih _ ?_
      have hx : x ∉ acc := by simpa using hc
      simp [List.nodup_append, h, hx]

theorem dedupFS_nodup (l : List Int) : (dedupFS l).Nodup :=
  dedupFS_go_nodup l [] List.nodup_nil

theorem mem_targetsFn_cId (op : Operation) (r : Register) (h : r ∈ targetsFn op) :
    r.cId = none := by
  cases op with
  | mk g t c ch da =>
    cases ch with
    | none => simp [targetsFn, Operation.children] at h
    | some l =>
      simp only [targetsFn, Operation.children] at h
      obtain ⟨q, _, rfl⟩ := List.mem_map.mp h
      rfl

theorem map_qId_mkReg : ∀ (l : List Int),
    List.map (Register.qId ∘ fun q => ({ qId := q, cId := none } : Register)) l = l := by
  intro l
  induction l with
  | nil => rfl
  | cons x xs ih => exact congrArg₂ List.cons rfl ih

theorem targetsFn_qIds_nodup (op : Operation) :
    ((targetsFn op).map Register.qId).Nodup := by
  cases op with
  | mk g t c ch da =>
    cases ch with
    | none => simp [targetsFn, Operation.children]
    | some l =>
      simp only [targetsFn, Operation.children, List.map_map]
      rw [map_qId_mkReg]
      exact dedupFS_nodup ((collectRegs.collectList l).map Register.qId)

def c9ControlsChild : Operation :=
  .mk "Foo" [] none
    (some [.mk "B" [⟨1, none⟩] (some [⟨2, none⟩])
      (some [.mk "K" [⟨5, none⟩] none none none]) none]) none

/-- C9: `_targets` returns the empty sequence for a node with no children;
on a composite it collects each child's targets, adds the child's controls
only when the child has a `controls` sequence, recurses into the child's
own children only within that controls-present branch, and returns one
register per unique `wireId` in first-seen order with no `auxWireId`.  The
spec's example `[{wireId:1}], [{wireId:1}]+controls [{wireId:2}]` yields
`[{wireId:1},{wireId:2}]`; a grandchild under a controls-free child is not
collected, while one under a controls-bearing child is; in general every
returned register lacks an `auxWireId` and the returned wire ids carry no
duplicate. -/
theorem c9_targets_aggregation :
    (∀ (g : String) (t : List Register) (c : Option (List Register))
       (da : Option (List (String × String))), targetsFn (.mk g t c none da) = []) ∧
    targetsFn c9Composite = [⟨1, none⟩, ⟨2, none⟩] ∧
    targetsFn c9NoControlsChild = [⟨1, none⟩] ∧
    targetsFn c9ControlsChild = [⟨1, none⟩, ⟨2, none⟩, ⟨5, none⟩] ∧
    (∀ (op : Operation) (r : Register), r ∈ targetsFn op → r.cId = none) ∧
    (∀ (op : Operation), ((targetsFn op).map Register.qId).Nodup) :=
  ⟨fun _ _ _ _ => rfl, rfl, rfl, rfl, mem_targetsFn_cId, targetsFn_qIds_nodup⟩

/-! ## Claim C7 -/

theorem map_qId_shiftTarget (off total : Int) : ∀ (t : List Register),
    List.map (Register.qId ∘ shiftTarget off total) t
      = List.map ((fun q => circularMod q off total) ∘ Register.qId) t := by
  intro t
  induction t with
  | nil => rfl
  | cons r rs ih => exact congrArg₂ List.cons rfl ih

theorem map_qId_shiftControl (off total : Int) : ∀ (t : List Register),
    List.map (Register.qId ∘ shiftControl off total) t
      = List.map ((fun q => circularMod q off total) ∘ Register.qId) t := by
  intro t
  induction t with
  | nil => rfl
  | cons r rs ih => exact congrArg₂ List.cons rfl ih

/-- Every `qId` of `_offsetRecursively`'s result is the `circularMod` image
of the corresponding original `qId` — for targets, controls and all
descendants alike (the `cId` slips of C3 do not affect `qId`s). -/
def qIdsOffset : ∀ (op : Operation) (off total : Int),
    qIdsOp (offsetRecursively op off total)
      = (qIdsOp op).map (fun q => circularMod q off total)
  | .mk g t c ch da, off, total => by
    cases c with
    | none =>
      cases ch with
      | none =>
        simp [offsetRecursively, qIdsOp, shiftTarget, List.map_map]
      | some l =>
        simp [offsetRecursively, qIdsOp, shiftTarget, List.map_map,
          qIdsOffsetList l off total]
    | some cs =>
      cases ch with
      | none =>
        simp [offsetRecursively, qIdsOp, List.map_map]
        rw [map_qId_shiftTarget, map_qId_shiftControl]
      | some l =>
        simp [offsetRecursively, qIdsOp, List.map_map, qIdsOffsetList l off total]
        rw [map_qId_shiftTarget, map_qId_shiftControl]
where
  qIdsOffsetList : ∀ (l : List Operation) (off total : Int),
      qIdsOp.qIdsList (offsetRecursively.offsetList l off total)
        = (qIdsOp.qIdsList l).map (fun q => circularMod q off total)
    | [], _, _ => by simp [offsetRecursively.offsetList, qIdsOp.qIdsList]
    | o :: os, off, total => by
      simp [offsetRecursively.offsetList, qIdsOp.qIdsList,
        qIdsOffset o off total, qIdsOffsetList os off total]

def c7Composite : Operation :=
  .mk "G" [] none (some [.mk "measure" [⟨0, some 0⟩] none none none]) none

/-- C7: the measurement exemption is checked only at the top level of a
vertical remap.  A node whose own gate is `"measure"` is returned by
`_moveY` completely untouched for any offset; a non-measure node has every
`qId` of every register (targets and controls, at all depths) replaced by
`(qId + (targetWire - sourceWire)) mod wireCount`; and a `"measure"` node
occurring as a child of a moved non-measure composite is remapped despite
the exemption (`G[measure(0)]` moved 0 → 2 with 4 wires becomes
`G[measure(2)]`). -/
theorem c7_measure_exemption :
    (∀ (sourceWire targetWire total : Int) (op : Operation),
       op.gate = "measure" → moveY sourceWire targetWire op total = op) ∧
    (∀ (sourceWire targetWire total : Int) (op : Operation),
       op.gate ≠ "measure" →
       qIdsOp (moveY sourceWire targetWire op total)
         = (qIdsOp op).map (fun q => circularMod q (targetWire - sourceWire) total)) ∧
    moveY 0 2 c7Composite 4
      = .mk "G" [] none (some [.mk "measure" [⟨2, some 0⟩] none none none]) none :=
  ⟨fun _ _ _ _ h => by simp [moveY, h],
   fun sw tw total op h => by simp [moveY, h, qIdsOffset],
   rfl⟩

/-- Witness for C7 at concrete inputs: a moved `"measure"` leaf keeps its
registers; a moved `H` leaf has its single `qId` shifted `0 → 2`. -/
theorem c7_measure_exemption_witness :
    moveY 0 2 (Operation.mk "measure" [⟨0, some 0⟩] none none none) 4
      = Operation.mk "measure" [⟨0, some 0⟩] none none none ∧
    qIdsOp (moveY 0 2 hOp 4) = (qIdsOp hOp).map (fun q => circularMod q 2 4) :=
  ⟨c7_measure_exemption.1 0 2 4 _ rfl,
   c7_measure_exemption.2.1 0 2 4 hOp (by decide)⟩

/-! ## Claim C10 -/

theorem modifyIdx_congr : ∀ (l : List α) (i : Nat) (f g : α → α) (e : α),
    l[i]? = some e → f e = g e → modifyIdx l i f = modifyIdx l i g := by
  intro l
  induction l with
  | nil => intro i f g e h _; simp at h
  | cons x xs ih =>
    intro i f g e h hfg
    cases i with
    | zero =>
      simp at h
      subst h
      simp [modifyIdx, hfg]
    | succ n =>
      simp at h
      simp [modifyIdx, ih n f g e h hfg]

theorem updAt_congr : ∀ (d : List Nat) (ops arr : List Operation)
    (f g : List Operation → List Operation), arrAt ops d = some arr →
    f arr = g arr → updAt ops d f = updAt ops d g := by
  intro d
  induction d with
  | nil =>
    intro ops arr f g h hfg
    rw [arrAt] at h
    cases h
    exact hfg
  | cons i d2 ih =>
    intro ops arr f g h hfg
    rw [arrAt] at h
    cases harr : ops[i]? with
    | none => rw [harr] at h; cases h
    | some op =>
      rw [harr] at h
      cases op with
      | mk gg t c ch da =>
        cases ch with
        | none => simp only [Operation.children] at h; cases h
        | some cl =>
          simp only [Operation.children] at h
          rw [updAt, updAt]
          exact modifyIdx_congr ops i _ _ _ harr (by simp [ih cl arr f g h hfg])

def remOp : Operation := .mk "R" [⟨0, none⟩] none none (some [("removed", "true")])

/-- C10: `_removeOperation` splices out the first element of the resolved
parent array whose `dataAttributes` carries a truthy `removed` key — not
necessarily the addressed node.  Whenever some sibling at index `j` before
the addressed index `i` already carries the marker, the removal deletes
that sibling (index `j` is still the first marked one after the addressed
node is marked) and the addressed node — now itself carrying the marker —
remains in the array, shifted to index `i − 1`. -/
theorem c10_remove_splices_first_marked (ops : List Operation) (loc : String)
    (d : List Nat) (arr : List Operation) (i j : Nat) (op : Operation)
    (hne : loc ≠ "")
    (hw : walk ops (indexes loc).dropLast = some (d, arr))
    (hl : (indexes loc).getLast? = some (some i))
    (hop : arr[i]? = some op)
    (hj : arr.findIdx? isRemoved = some j)
    (hji : j < i) :
    removeOperation ops loc
      = .val (updAt ops d (fun l => eraseAt (modifyIdx l i markRemoved) j)) ∧
    arrAt (updAt ops d (fun l => eraseAt (modifyIdx l i markRemoved) j)) d
      = some (eraseAt (modifyIdx arr i markRemoved) j) ∧
    (eraseAt (modifyIdx arr i markRemoved) j)[i - 1]? = some (markRemoved op) := by
  have harr : arrAt ops d = some arr := walk_arrAt _ ops d arr hw
  have hfind : (modifyIdx arr i markRemoved).findIdx? isRemoved = some j :=
    findIdx?_modifyIdx_of_lt arr isRemoved i j markRemoved hj hji
  refine ⟨?_, ?_, ?_⟩
  · simp only [removeOperation, resolveOp, if_neg hne, hw, hl, hop]
    have hcongr : updAt ops d (fun l => spliceRemoveMarked (modifyIdx l i markRemoved))
        = updAt ops d (fun l => eraseAt (modifyIdx l i markRemoved) j) :=
      updAt_congr d ops arr _ _ harr (by rw [spliceRemoveMarked, hfind])
    rw [hcongr]
  · exact arrAt_updAt_self d ops arr _ harr
  · have h1 : (eraseAt (modifyIdx arr i markRemoved) j)[i - 1]?
        = (modifyIdx arr i markRemoved)[i - 1 + 1]? :=
      getElem?_eraseAt_ge _ j (i - 1) (by omega)
    rw [h1, show i - 1 + 1 = i from by omega, getElem?_modifyIdx_self, hop]
    rfl

/-- Witness for C10: in the tree `[R(marked), H]` with location `"1"`
addressing `H`, the removal deletes the pre-marked `R` and leaves a marked
`H` behind at index 0. -/
theorem c10_remove_splices_first_marked_witness :
    removeOperation [remOp, hOp] "1" = .val [markRemoved hOp] ∧
    (eraseAt (modifyIdx [remOp, hOp] 1 markRemoved) 0)[0]? = some (markRemoved hOp) := by
  have h := c10_remove_splices_first_marked [remOp, hOp] "1" [] [remOp, hOp] 1 0 hOp
    (by decide) rfl rfl rfl rfl (by decide)
  exact ⟨h.1, h.2.2⟩

/-! ## Claim C4 -/

/-- C4 claims every gesture invokes the redraw callback at most once and
exactly when the post-mutation tree differs structurally from the
pre-gesture snapshot — in particular that a delete whose armed path no
longer resolves never redraws.  The Delete handler refutes this: with the
tree `[H]` and the stale armed location `"5"` (which does not resolve, so
the removal is a no-op and the tree is unchanged), the handler still
invokes the redraw callback. -/
theorem c4_delete_noop_redraw_counterexample :
    deleteKeydown ⟨[hOp], none, some "5", none, 3⟩
      = .val (⟨[hOp], none, some "5", none, 3⟩, true) := rfl

/-- C4 amended: a dropzone `mouseup` gesture that completes without a JS
exception invokes the redraw callback at most once, and exactly when the
post-mutation tree is not structurally equal (lodash `isEqual`) to the
pre-gesture snapshot; the Delete gesture instead invokes it exactly when a
location is armed, regardless of whether the tree changed. -/
theorem c4_redraw_iff_changed_amended :
    (∀ (s : CircuitState) (ev : DropEvent) (out : CircuitState × Bool),
       dropzoneMouseup s ev = .val out →
       (out.2 = true ↔ isEqual s.operations out.1.operations = false)) ∧
    (∀ (s : CircuitState) (out : CircuitState × Bool),
       deleteKeydown s = .val out → (out.2 = true ↔ s.selectedLocation ≠ none)) := by
  constructor
  · intro s ev out h
    unfold dropzoneMouseup at h
    split at h
    · split at h
      · cases h
      · cases h
        simp
    · split at h
      · split at h
        · cases h
        · split at h
          · split at h
            · dsimp only at h
              split at h
              · cases h
              · cases h
                simp
            · dsimp only at h
              split at h
              · cases h
              · cases h
                simp
          · cases h
            simp
      · cases h
        simp [isEqual_refl]
  · intro s out h
    unfold deleteKeydown at h
    split at h
    · rename_i loc hloc
      split at h
      · cases h
      · cases h
        simp [hloc]
    · rename_i hloc
      cases h
      simp [hloc]

/-- Witness for C4 amended: dropping the armed `H` onto its own slot (same
location, same wire) leaves the tree equal to the snapshot and does not
redraw; a Delete with an armed location redraws. -/
theorem c4_redraw_iff_changed_amended_witness :
    ((false : Bool) = true ↔ isEqual [hOp, xOp] [hOp, xOp] = false) ∧
    ((true : Bool) = true ↔ (some "5" : Option String) ≠ none) :=
  ⟨c4_redraw_iff_changed_amended.1 ⟨[hOp, xOp], some hOp, some "0", some 0, 3⟩
      ⟨some "0", some 0, false⟩ (⟨[hOp, xOp], none, none, some 0, 3⟩, false) rfl,
   c4_redraw_iff_changed_amended.2 ⟨[hOp], none, some "5", none, 3⟩
      (⟨[hOp], none, some "5", none, 3⟩, true) rfl⟩

/-! ## Claim C5 -/

/-- C5 claims all three transient selection fields are reset at the end of
every gesture on every branch.  The code refutes this: `selectedWire` is
never reset anywhere — after a fully successful move gesture it still
holds the armed wire. -/
theorem c5_wire_not_cleared_counterexample :
    dropzoneMouseup ⟨[hOp, xOp], some hOp, some "0", some 0, 3⟩ ⟨some "1", some 1, false⟩
      = .val (⟨[hOp1, xOp], none, none, some 0, 3⟩, true) := rfl

/-- C5 amended: a dropzone gesture never changes `selectedWire`; the
toolbox-add branch (no armed location, an armed operation and a target)
resets `selectedOperation` (and the location was already none); the
move/copy branch (all five inputs present) resets `selectedLocation` and
`selectedOperation` whether or not the mutation succeeded; the Delete
gesture resets none of the three fields. -/
theorem c5_selection_clearing_amended :
    (∀ (s : CircuitState) (ev : DropEvent) (out : CircuitState × Bool),
       dropzoneMouseup s ev = .val out →
       out.1.selectedWire = s.selectedWire ∧
       (s.selectedLocation = none → s.selectedOperation ≠ none → ev.targetLoc ≠ none →
          ev.targetWire ≠ none →
          out.1.selectedOperation = none ∧ out.1.selectedLocation = none) ∧
       (s.selectedLocation ≠ none → s.selectedOperation ≠ none → ev.targetLoc ≠ none →
          ev.targetWire ≠ none → s.selectedWire ≠ none →
          out.1.selectedLocation = none ∧ out.1.selectedOperation = none)) ∧
    (∀ (s : CircuitState) (out : CircuitState × Bool),
       deleteKeydown s = .val out →
       out.1.selectedOperation = s.selectedOperation ∧
       out.1.selectedLocation = s.selectedLocation ∧
       out.1.selectedWire = s.selectedWire) := by
  constructor
  · intro s ev out h
    unfold dropzoneMouseup at h
    split at h
    · rename_i hselLoc hselOp htLoc htWire
      split at h
      · cases h
      · cases h
        simp [hselLoc]
    · rename_i hnotadd
      split at h
      · rename_i htLoc htWire hselOp hselLoc hselWire
        split at h
        · cases h
        · split at h
          · split at h
            · dsimp only at h
              split at h
              · cases h
              · cases h
                simp
            · dsimp only at h
              split at h
              · cases h
              · cases h
                simp
          · cases h
            simp
      · rename_i habort
        cases h
        refine ⟨rfl, ?_, ?_⟩
        · intro h1 h2 h3 h4
          cases hsl : s.selectedLocation with
          | some v => rw [hsl] at h1; cases h1
          | none =>
            cases hso : s.selectedOperation with
            | none => exact absurd hso h2
            | some so =>
              cases htl : ev.targetLoc with
              | none => exact absurd htl h3
              | some tl =>
                cases htw : ev.targetWire with
                | none => exact absurd htw h4
                | some tw => exact absurd (hnotadd so tl tw hsl hso htl htw) (by simp)
        · intro h1 h2 h3 h4 h5
          cases hsl : s.selectedLocation with
          | none => exact absurd hsl h1
          | some sl =>
            cases hso : s.selectedOperation with
            | none => exact absurd hso h2
            | some so =>
              cases htl : ev.targetLoc with
              | none => exact absurd htl h3
              | some tl =>
                cases htw : ev.targetWire with
                | none => exact absurd htw h4
                | some tw =>
                  cases hswi : s.selectedWire with
                  | none => exact absurd hswi h5
                  | some sw =>
                    exact absurd (habort tl tw so sl sw htl htw hso hsl hswi) (by simp)
  · intro s out h
    unfold deleteKeydown at h
    split at h
    · split at h
      · cases h
      · cases h
        simp
    · cases h
      simp

/-- Witness for C5 amended: the no-op same-slot drop preserves
`selectedWire = some 0` and clears location and operation; a Delete with
an armed location leaves all three fields as they were. -/
theorem c5_selection_clearing_amended_witness :
    ((⟨[hOp, xOp], none, none, some 0, 3⟩ : CircuitState).selectedWire = some 0 ∧
       ((⟨[hOp, xOp], none, none, some 0, 3⟩ : CircuitState).selectedLocation = none ∧
        (⟨[hOp, xOp], none, none, some 0, 3⟩ : CircuitState).selectedOperation = none)) ∧
    ((⟨[hOp], none, some "5", none, 3⟩ : CircuitState).selectedLocation = some "5") := by
  have h1 := c5_selection_clearing_amended.1 ⟨[hOp, xOp], some hOp, some "0", some 0, 3⟩
    ⟨some "0", some 0, false⟩ (⟨[hOp, xOp], none, none, some 0, 3⟩, false) rfl
  have h2 := c5_selection_clearing_amended.2 ⟨[hOp], none, some "5", none, 3⟩
    (⟨[hOp], none, some "5", none, 3⟩, true) rfl
  refine ⟨⟨h1.1, ?_⟩, ?_⟩
  · have h3 := h1.2.2 (by simp) (by simp) (by simp) (by simp) (by simp)
    exact ⟨h3.1, h3.2⟩
  · exact h2.2.1.symm ▸ rfl

/-! ## Claim C6 -/

def aOp : Operation := .mk "A" [⟨0, none⟩] none none none

def compC : Operation := .mk "C" [⟨0, none⟩] none (some [aOp]) none

/-- The toolbox-add gesture dropping `X` into the composite `C` at
location `"0-1"`, target wire 1, with 3 wires. -/
def c6Result : List Operation :=
  match dropzoneMouseup ⟨[compC], some xOp, none, none, 3⟩ ⟨some "0-1", some 1, false⟩ with
  | .val (s2, _) => s2.operations
  | .thrown => []

def c6After : Operation :=
  .mk "C" [⟨0, none⟩] none (some [aOp, .mk "X" [⟨2, none⟩] none none none]) none

/-- C6 claims that after every drop gesture that adds, moves or copies a
node inside a composite, that composite's `targets` equals the
deduplicated union of all wire ids referenced as target or control by its
descendants.  The add branch refutes this: it recomputes no targets at
all.  After dropping `X` (remapped to wire 2) into composite `C`, the
composite's targets are still `[0]` while its descendants reference
`{0, 2}`. -/
theorem c6_add_no_recompute_counterexample :
    c6Result = [c6After] ∧
    c6After.targets.map Register.qId = [0] ∧
    specDescWires c6After = [0, 2] ∧
    ([0] : List Int) ≠ [0, 2] :=
  ⟨rfl, rfl, rfl, by decide⟩

theorem targets_setTargets (op : Operation) (t : List Register) :
    (setTargets op t).targets = t := by
  cases op with
  | mk g tt c ch da => rfl

theorem targetsFn_setTargets (op : Operation) (t : List Register) :
    targetsFn (setTargets op t) = targetsFn op := by
  cases op with
  | mk g tt c ch da => rfl

/-- Inversion of a successful `_findParentOperation` resolution: the
returned operation sits at the returned address. -/
theorem resolveParentOp_getAt (ops : List Operation) (loc : String) (pa : Addr)
    (pop : Operation) (h : resolveParentOp ops loc = .val (some (pa, pop))) :
    ∃ arr, arrAt ops pa.d = some arr ∧ arr[pa.i]? = some pop := by
  obtain ⟨pad, pai⟩ := pa
  unfold resolveParentOp at h
  by_cases hne : loc = ""
  · rw [if_pos hne] at h; simp at h
  · rw [if_neg hne] at h
    dsimp only at h
    cases hlast : ((indexes loc).dropLast).getLast? with
    | none => rw [hlast] at h; simp at h
    | some idxOpt =>
      rw [hlast] at h
      dsimp only at h
      cases hwalk : walk ops ((indexes loc).dropLast.dropLast) with
      | none => rw [hwalk] at h; simp at h
      | some pr =>
        obtain ⟨d, arr⟩ := pr
        rw [hwalk] at h
        dsimp only at h
        cases idxOpt with
        | none => simp at h
        | some i =>
          dsimp only at h
          cases hop : arr[i]? with
          | none => rw [hop] at h; simp at h
          | some op =>
            rw [hop] at h
            dsimp only at h
            simp only [JsOut.val.injEq, Option.some.injEq, Prod.mk.injEq, Addr.mk.injEq] at h
            obtain ⟨⟨hd, hi⟩, hop2⟩ := h
            subst hd
            subst hi
            subst hop2
            exact ⟨arr, walk_arrAt _ ops d arr hwalk, hop⟩

/-- C6 amended: only the move/copy branch recomputes targets, and only for
the parent operation of the source location resolved against the
post-mutation tree.  The recompute step — exactly the handler's
`parentOperation.targets = _targets(parentOperation)` — replaces the
resolved parent in place, and afterwards that node's `targets` equals the
`_targets` aggregation of the node itself (the source policy that skips
descendants of controls-free children); the add branch recomputes
nothing. -/
theorem c6_recompute_amended (ops2 : List Operation) (loc : String) (pa : Addr)
    (pop : Operation) (h : resolveParentOp ops2 loc = .val (some (pa, pop))) :
    getAt (applyAtAddr ops2 pa (fun op => setTargets op (targetsFn op))) pa
      = some (setTargets pop (targetsFn pop)) ∧
    (setTargets pop (targetsFn pop)).targets = targetsFn (setTargets pop (targetsFn pop)) := by
  constructor
  · obtain ⟨arr, harr, hop⟩ := resolveParentOp_getAt ops2 loc pa pop h
    have h2 := arrAt_updAt_self pa.d ops2 arr
      (fun l => modifyIdx l pa.i (fun op => setTargets op (targetsFn op))) harr
    simp only [getAt, applyAtAddr, h2, getElem?_modifyIdx_self, hop]
    rfl
  · rw [targets_setTargets, targetsFn_setTargets]

/-- Witness for C6 amended: resolving the parent of location `"0-0"` in
the one-composite tree `[C]` yields `C` itself at address `([], 0)`;
after the recompute step the node in the tree carries
`targets = _targets(C) = [{qId 0}]`, which equals its own recomputed
aggregation. -/
theorem c6_recompute_amended_witness :
    getAt (applyAtAddr [compC] ⟨[], 0⟩ (fun op => setTargets op (targetsFn op))) ⟨[], 0⟩
      = some (setTargets compC (targetsFn compC)) ∧
    (setTargets compC (targetsFn compC)).targets
      = targetsFn (setTargets compC (targetsFn compC)) :=
  c6_recompute_amended [compC] "0-0" ⟨[], 0⟩ compC rfl

/-! ## Claim C8 -/

theorem lt_length_of_getElemEq : ∀ (l : List α) (i : Nat) (x : α),
    l[i]? = some x → i < l.length := by
  intro l
  induction l with
  | nil => intro i x h; simp at h
  | cons y ys ih =>
    intro i x h
    cases i with
    | zero => simp
    | succ n => simp at h ⊢; exact ih n x h

theorem getElemEq_of_mem : ∀ (l : List α) (x : α), x ∈ l → ∃ i : Nat, l[i]? = some x := by
  intro l
  induction l with
  | nil => intro x h; simp at h
  | cons y ys ih =>
    intro x h
    rcases List.mem_cons.mp h with h2 | h2
    · exact ⟨0, by simp [h2]⟩
    · obtain ⟨i, hi⟩ := ih x h2
      exact ⟨i + 1, by simpa using hi⟩

theorem mem_spliceIns : ∀ (l : List α) (p : Nat) (x y : α),
    y ∈ spliceIns l p x → y ∈ l ∨ y = x := by
  intro l p x y h
  rw [spliceIns] at h
  rcases List.mem_append.mp h with h2 | h2
  · exact Or.inl (List.mem_of_mem_take h2)
  · rcases List.mem_cons.mp h2 with h3 | h3
    · exact Or.inr h3
    · exact Or.inl (List.mem_of_mem_drop h3)

theorem descends_nil (q : List Nat) : descends [] q = true := by simp [descends]

theorem descends_cons_same (x : Nat) (p q : List Nat) :
    descends (x :: p) (x :: q) = descends p q := by
  simp [descends]

theorem descends_append_self (p r : List Nat) : descends p (p ++ r) = true := by
  induction p with
  | nil => simp [descends]
  | cons x xs ih => simpa [descends] using ih

theorem exists_append_of_descends : ∀ (p q : List Nat), descends p q = true →
    ∃ r, q = p ++ r := by
  intro p
  induction p with
  | nil => intro q _; exact ⟨q, rfl⟩
  | cons x xs ih =>
    intro q h
    cases q with
    | nil => simp [descends] at h
    | cons y ys =>
      simp [descends] at h
      obtain ⟨rfl, h2⟩ := h
      obtain ⟨r, rfl⟩ := ih ys h2
      exact ⟨r, rfl⟩

theorem eq_of_descends_not_proper (p q : List Nat) (hd : descends p q = true)
    (hnp : properUnder p q = false) : p = q := by
  obtain ⟨r, rfl⟩ := exists_append_of_descends p q hd
  rw [properUnder, hd] at hnp
  simp at hnp
  have : r = [] := by
    cases r with
    | nil => rfl
    | cons a rs => simp at hnp
  simp [this]

theorem modifyIdx_append_len : ∀ (p : List Nat) (k : Nat) (rest : List Nat) (f : Nat → Nat),
    modifyIdx (p ++ k :: rest) p.length f = p ++ f k :: rest := by
  intro p
  induction p with
  | nil => intro k rest f; rfl
  | cons x xs ih => intro k rest f; simp [modifyIdx, ih]

theorem arrAt_append : ∀ (d1 d2 : List Nat) (ops : List Operation),
    arrAt ops (d1 ++ d2) = match arrAt ops d1 with
      | none => none
      | some a => arrAt a d2 := by
  intro d1
  induction d1 with
  | nil => intro d2 ops; rfl
  | cons i d1t ih =>
    intro d2 ops
    rw [show (i :: d1t) ++ d2 = i :: (d1t ++ d2) from rfl]
    rw [arrAt, arrAt]
    cases harr : ops[i]? with
    | none => rfl
    | some op =>
      cases hch : op.children with
      | none => simp [hch]
      | some c => simp only [hch]; exact ih d2 c

/-- The per-element update performed by `updAt` changes only the element's
`children`, so its deletion-marker status is unchanged. -/
theorem isRemoved_updAt_elem (d : List Nat) (f : List Operation → List Operation)
    (op : Operation) :
    isRemoved (match op with
      | .mk g t c none da => .mk g t c none da
      | .mk g t c (some ch) da => .mk g t c (some (updAt ch d f)) da) = isRemoved op := by
  cases op with
  | mk g t c ch da => cases ch <;> rfl

/-- Updating the array at a path `dt` that is not an initial segment of
`ds` leaves the array at `ds` in place: same length, same per-element
deletion-marker statuses, and elements whose own path is not on the way to
`dt` are exactly unchanged. -/
theorem arrAt_updAt_off : ∀ (dt ds : List Nat) (ops a : List Operation)
    (f : List Operation → List Operation),
    descends dt ds = false → arrAt ops ds = some a →
    ∃ a2, arrAt (updAt ops dt f) ds = some a2 ∧ a2.length = a.length ∧
      (∀ m : Nat, (a2[m]?).map isRemoved = (a[m]?).map isRemoved) ∧
      (∀ m : Nat, descends (ds ++ [m]) dt = false → a2[m]? = a[m]?) := by
  intro dt
  induction dt with
  | nil => intro ds ops a f hnd _; rw [descends_nil] at hnd; cases hnd
  | cons b dt2 ih =>
    intro ds ops a f hnd ha
    cases ds with
    | nil =>
      rw [arrAt] at ha
      cases ha
      refine ⟨modifyIdx ops b _, rfl, modifyIdx_length ops b _, ?_, ?_⟩
      · intro m
        by_cases hm : b = m
        · subst hm
          rw [getElem?_modifyIdx_self]
          cases ops[b]? with
          | none => rfl
          | some e => simp [isRemoved_updAt_elem]
        · rw [getElem?_modifyIdx_ne ops b m _ hm]
      · intro m hm
        simp only [List.nil_append] at hm
        have hmb : m ≠ b := by
          intro hrfl
          subst hrfl
          simp [descends] at hm
        exact getElem?_modifyIdx_ne ops b m _ (fun he => hmb he.symm)
    | cons c ds2 =>
      rw [arrAt] at ha
      cases harr : ops[c]? with
      | none => rw [harr] at ha; cases ha
      | some op =>
        rw [harr] at ha
        by_cases hcb : c = b
        · subst hcb
          rw [descends_cons_same] at hnd
          cases op with
          | mk g t cc ch da =>
            cases ch with
            | none =>
              simp only [Operation.children] at ha
              cases ha
            | some cl =>
              simp only [Operation.children] at ha
              obtain ⟨a2, ha2, hlen, hst, hexact⟩ := ih ds2 cl a f hnd ha
              refine ⟨a2, ?_, hlen, hst, ?_⟩
              · rw [updAt, arrAt, getElem?_modifyIdx_self, harr]
                simp only [Option.map_some, Operation.children]
                exact ha2
              · intro m hm
                rw [show (c :: ds2) ++ [m] = c :: (ds2 ++ [m]) from rfl,
                  descends_cons_same] at hm
                exact hexact m hm
        · refine ⟨a, ?_, rfl, fun m => rfl, fun m _ => rfl⟩
          rw [updAt, arrAt, getElem?_modifyIdx_ne ops b c _ (fun he => hcb he.symm), harr]
          cases op with
          | mk g t cc ch da =>
            cases ch with
            | none => simp only [Operation.children] at ha; cases ha
            | some cl =>
              simp only [Operation.children] at ha ⊢
              exact ha

/-- Inserting into the array at `dt` bumps the descent taken just below
`dt` on the way to a deeper array; the deeper array's value is unchanged. -/
theorem arrAt_updAt_above (dt : List Nat) (ops arrT a : List Operation) (k : Nat)
    (rest : List Nat) (p : Nat) (x : Operation)
    (hT : arrAt ops dt = some arrT) (hka : arrAt arrT (k :: rest) = some a)
    (hp : p ≤ arrT.length) :
    arrAt (updAt ops dt (fun l => spliceIns l p x))
      (dt ++ ((if p ≤ k then k + 1 else k) :: rest)) = some a := by
  rw [arrAt_append, arrAt_updAt_self dt ops arrT _ hT]
  show arrAt (spliceIns arrT p x) ((if p ≤ k then k + 1 else k) :: rest) = some a
  rw [arrAt] at hka
  by_cases hpk : p ≤ k
  · rw [if_pos hpk, arrAt, getElem?_spliceIns_ge arrT p k x hpk]
    exact hka
  · rw [if_neg hpk, arrAt, getElem?_spliceIns_lt arrT p k x (by omega) hp]
    exact hka

/-- The mark-then-splice tail of `_moveX`: marking the original (the only
marked node in its parent array) and erasing the first marked element
removes exactly the original, cancelling the clone's insertion in the
node count. -/
theorem moveX_tail_count (ops ops1 : List Operation) (dsf : List Nat) (isf : Nat)
    (arrF : List Operation) (srcOp : Operation)
    (ha : arrAt ops1 dsf = some arrF)
    (hel : arrF[isf]? = some srcOp)
    (hcl : ∀ x ∈ arrF, isRemoved x = false)
    (hcnt : countList ops1 = countList ops + countOp srcOp) :
    arrAt (updAt ops1 dsf (fun arr => modifyIdx arr isf markRemoved)) dsf
      = some (modifyIdx arrF isf markRemoved) ∧
    (modifyIdx arrF isf markRemoved).findIdx? isRemoved = some isf ∧
    countList (updAt (updAt ops1 dsf (fun arr => modifyIdx arr isf markRemoved)) dsf
      (fun arr => eraseAt arr isf)) = countList ops := by
  have hlen : isf < arrF.length := lt_length_of_getElemEq arrF isf srcOp hel
  have h1 : arrAt (updAt ops1 dsf (fun arr => modifyIdx arr isf markRemoved)) dsf
      = some (modifyIdx arrF isf markRemoved) := arrAt_updAt_self dsf ops1 arrF _ ha
  refine ⟨h1, findIdx?_modifyIdx_self_of_clean arrF isf hcl hlen, ?_⟩
  have hc2 := countList_updAt dsf ops1 arrF (fun arr => modifyIdx arr isf markRemoved) ha
  have hmod := countList_modifyIdx arrF isf markRemoved srcOp hel
  rw [countOp_markRemoved] at hmod
  have hc3 := countList_updAt dsf (updAt ops1 dsf (fun arr => modifyIdx arr isf markRemoved))
    (modifyIdx arrF isf markRemoved) (fun arr => eraseAt arr isf) h1
  have hmarked : (modifyIdx arrF isf markRemoved)[isf]? = some (markRemoved srcOp) := by
    rw [getElem?_modifyIdx_self, hel]; rfl
  have herase := countList_eraseAt (modifyIdx arrF isf markRemoved) isf
    (markRemoved srcOp) hmarked
  rw [countOp_markRemoved] at herase
  dsimp only at hc2 hc3
  omega

def bOp : Operation := .mk "B" [⟨1, none⟩] none none none
def pOp : Operation := .mk "P" [⟨0, none⟩] none (some [aOp, bOp]) none
def qOp : Operation := .mk "Q" [⟨2, none⟩] none none none

/-- C8 claims `moveX(src, dst)` preserves the total node count for every
pair of distinct, validly resolving paths.  Moving the composite `P`
(3 nodes, children `[A, B]`) from `"0"` into its own children array at
`"0-1"` refutes this: both paths resolve (the call returns a clone, not
the not-found sentinel), yet the original — now containing the clone — is
spliced out, and the count drops from 4 to 1. -/
theorem c8_move_inside_subtree_counterexample :
    moveX [pOp, qOp] "0" "0-1" = .val ([qOp], some ⟨none, pOp⟩) ∧
    countList [pOp, qOp] = 4 ∧
    countList [qOp] = 1 :=
  ⟨rfl, rfl, rfl⟩

/-- C8 amended: for distinct validly resolving paths, `moveX(src, dst)`
preserves the total node count provided the tree carries no pre-existing
deletion markers and the target's parent array does not lie inside the
moved node's own subtree (the walk to the target parent does not pass
through the source node). -/
theorem c8_move_preserves_count_amended (ops : List Operation) (src tgt : String)
    (ds dt : List Nat) (arrS arrT : List Operation) (i : Nat) (srcOp : Operation)
    (tl : Option Nat)
    (hclean : cleanList ops = true)
    (hsrcne : src ≠ "") (htgtne : tgt ≠ "") (hne : src ≠ tgt)
    (hsw : walk ops (indexes src).dropLast = some (ds, arrS))
    (hsl : (indexes src).getLast? = some (some i))
    (hop : arrS[i]? = some srcOp)
    (htw : walk ops (indexes tgt).dropLast = some (dt, arrT))
    (htl : (indexes tgt).getLast? = some tl)
    (hdisj : descends (ds ++ [i]) dt = false) :
    ∃ (opsF : List Operation) (info : MovedInfo),
      moveX ops src tgt = .val (opsF, some info) ∧ countList opsF = countList ops := by
  have harrS : arrAt ops ds = some arrS := walk_arrAt _ ops ds arrS hsw
  have harrT : arrAt ops dt = some arrT := walk_arrAt _ ops dt arrT htw
  have hcleanS : cleanList arrS = true := cleanList_arrAt ds ops arrS hclean harrS
  have hres : resolveOp ops src = .val (some (⟨ds, i⟩, srcOp)) := by
    simp only [resolveOp, if_neg hsrcne, hsw, hsl, hop]
  have htres : resolveTargetParent ops tgt = .val (some (dt, arrT)) := by
    simp only [resolveTargetParent, if_neg htgtne, htw]
  have hpcle : min (tl.getD 0) arrT.length ≤ arrT.length := min_le_right _ _
  have hcnt1 : countList (updAt ops dt
        (fun arr => spliceIns arr (min (tl.getD 0) arrT.length) srcOp))
      = countList ops + countOp srcOp := by
    have h := countList_updAt dt ops arrT
      (fun arr => spliceIns arr (min (tl.getD 0) arrT.length) srcOp) harrT
    rw [countList_spliceIns] at h
    omega
  have hsrcClean : isRemoved srcOp = false :=
    cleanOp_unmarked (cleanList_mem arrS srcOp hcleanS (mem_of_getElemEq arrS i srcOp hop))
  obtain ⟨dsf, isf, arrF, hins, ha, hel, hcl⟩ :
      ∃ (dsf : List Nat) (isf : Nat) (arrF : List Operation),
        insAdj ds i dt (min (tl.getD 0) arrT.length) = (dsf, isf) ∧
        arrAt (updAt ops dt
          (fun arr => spliceIns arr (min (tl.getD 0) arrT.length) srcOp)) dsf
          = some arrF ∧
        arrF[isf]? = some srcOp ∧
        (∀ x ∈ arrF, isRemoved x = false) := by
    by_cases hsame : ds = dt
    · subst hsame
      have harrEq : arrS = arrT := by
        rw [harrS] at harrT
        exact Option.some.inj harrT
      subst harrEq
      refine ⟨ds, if min (tl.getD 0) arrS.length ≤ i then i + 1 else i,
        spliceIns arrS (min (tl.getD 0) arrS.length) srcOp, ?_, ?_, ?_, ?_⟩
      · rw [insAdj, if_pos rfl]
      · exact arrAt_updAt_self ds ops arrS _ harrS
      · by_cases hpi : min (tl.getD 0) arrS.length ≤ i
        · rw [if_pos hpi, getElem?_spliceIns_ge arrS _ i srcOp hpi]
          exact hop
        · rw [if_neg hpi, getElem?_spliceIns_lt arrS _ i srcOp (by omega) hpcle]
          exact hop
      · intro x hx
        rcases mem_spliceIns arrS _ srcOp x hx with hx2 | hx2
        · exact cleanOp_unmarked (cleanList_mem arrS x hcleanS hx2)
        · rw [hx2]; exact hsrcClean
    · by_cases habove : properUnder dt ds = true
      · have hdtds : descends dt ds = true := by
          rw [properUnder] at habove
          exact (Bool.and_eq_true_iff.mp habove).1
        obtain ⟨r, hr⟩ := exists_append_of_descends dt ds hdtds
        cases hrc : r with
        | nil =>
          exfalso
          rw [hrc] at hr
          simp at hr
          exact hsame hr
        | cons k rest =>
          rw [hrc] at hr
          subst hr
          have hkval : ((dt ++ k :: rest).drop dt.length).headD 0 = k := by
            simp
          have hAbove := arrAt_updAt_above dt ops arrT arrS k rest
            (min (tl.getD 0) arrT.length) srcOp harrT ?_ hpcle
          · refine ⟨if min (tl.getD 0) arrT.length ≤ k
                then bumpAt (dt ++ k :: rest) dt.length else dt ++ k :: rest, i, arrS,
              ?_, ?_, hop, fun x hx => cleanOp_unmarked (cleanList_mem arrS x hcleanS hx)⟩
            · rw [insAdj, if_neg (fun he => hsame he), if_pos habove, hkval]
              by_cases hpk : min (tl.getD 0) arrT.length ≤ k
              · rw [if_pos hpk, if_pos hpk]
              · rw [if_neg hpk, if_neg hpk]
            · rw [bumpAt]
              by_cases hpk : min (tl.getD 0) arrT.length ≤ k
              · rw [if_pos hpk, modifyIdx_append_len]
                rw [if_pos hpk] at hAbove
                exact hAbove
              · rw [if_neg hpk]
                rw [if_neg hpk] at hAbove
                exact hAbove
          · have hsplit := arrAt_append dt (k :: rest) ops
            rw [harrT] at hsplit
            rw [hsplit] at harrS
            exact harrS
      · have hnd : descends dt ds = false := by
          cases hd : descends dt ds with
          | false => rfl
          | true => exact absurd (eq_of_descends_not_proper dt ds hd
              (by simpa using habove)) (fun he => hsame he.symm)
        obtain ⟨a2, ha2, hlen, hst, hexact⟩ := arrAt_updAt_off dt ds ops arrS
          (fun arr => spliceIns arr (min (tl.getD 0) arrT.length) srcOp) hnd harrS
        refine ⟨ds, i, a2, ?_, ha2, ?_, ?_⟩
        · rw [insAdj, if_neg hsame, if_neg habove]
        · rw [hexact i hdisj]
          exact hop
        · intro x hx
          obtain ⟨m, hm⟩ := getElemEq_of_mem a2 x hx
          have hs := hst m
          rw [hm] at hs
          cases harrm : arrS[m]? with
          | none => rw [harrm] at hs; simp at hs
          | some y =>
            rw [harrm] at hs
            simp at hs
            rw [hs]
            exact cleanOp_unmarked (cleanList_mem arrS y hcleanS
              (mem_of_getElemEq arrS m y harrm))
  have htail := moveX_tail_count ops _ dsf isf arrF srcOp ha hel hcl hcnt1
  refine ⟨updAt (updAt (updAt ops dt
      (fun arr => spliceIns arr (min (tl.getD 0) arrT.length) srcOp)) dsf
      (fun arr => modifyIdx arr isf markRemoved)) dsf (fun arr => eraseAt arr isf),
    ⟨(eraseAdj dt (min (tl.getD 0) arrT.length) dsf isf).map (fun di => ⟨di.1, di.2⟩),
      srcOp⟩, ?_, htail.2.2⟩
  simp only [moveX, hres, if_neg hne, htres, htl]
  rw [hins]
  simp only [htail.1, Option.getD_some, htail.2.1]

/-- Witness for C8 amended: moving `H` from `"0"` to `"1"` in the clean
two-element tree `[H, X]` keeps the node count at 2. -/
theorem c8_move_preserves_count_amended_witness :
    ∃ (opsF : List Operation) (info : MovedInfo),
      moveX [hOp, xOp] "0" "1" = .val (opsF, some info) ∧
      countList opsF = countList [hOp, xOp] :=
  c8_move_preserves_count_amended [hOp, xOp] "0" "1" [] [] [hOp, xOp] [hOp, xOp] 0 hOp
    (some 1) rfl (by decide) (by decide) (by decide) rfl rfl rfl rfl rfl (by decide)

end CircuitVis
